import Mathlib

/-!
Shallow embedding of the ingredient-reconciliation and pagination core of the
recipe web application (`app.py`, `data.py`).  Python strings are modelled as
lists of Unicode code points (`PyStr := List Nat`); the ASCII casing, digit and
whitespace rules used by the code are made explicit.  Machine integers are
`Int`/`Nat` (Python integers are unbounded, so no wrap-around modelling is
needed) and nutrient amounts are exact rationals.
-/

/-- A Python string, modelled as its list of Unicode code points. -/
abbrev PyStr := List Nat

/-- Build a `PyStr` from a Lean string literal (code points of its characters). -/
def str (s : String) : PyStr := s.data.map Char.toNat

/-- ASCII lower-casing of one code point, as Python `str.lower` acts on ASCII. -/
def pyLowerChar (c : Nat) : Nat := if 65 ≤ c ∧ c ≤ 90 then c + 32 else c

/-- Python `str.lower`, restricted to the ASCII casing rule. -/
def pyLower (s : PyStr) : PyStr := s.map pyLowerChar

/-- Whitespace test used by Python `str.split()` / `str.strip()` (ASCII set). -/
def isWsChar (c : Nat) : Bool := c == 32 || c == 9 || c == 10 || c == 13 || c == 11 || c == 12

/-- Python `str.strip()`: drop leading and trailing whitespace. -/
def pyStrip (s : PyStr) : PyStr :=
  ((s.dropWhile isWsChar).reverse.dropWhile isWsChar).reverse

/-- Auxiliary for `splitWs`: `cur` is the reversed current word. -/
def splitWsAux : PyStr → PyStr → List PyStr
  | [], cur => if cur.isEmpty then [] else [cur.reverse]
  | c :: rest, cur =>
    if isWsChar c then
      if cur.isEmpty then splitWsAux rest [] else cur.reverse :: splitWsAux rest []
    else splitWsAux rest (c :: cur)

/-- Python `str.split()` with no argument: split on whitespace runs, dropping
empty chunks. -/
def splitWs (s : PyStr) : List PyStr := splitWsAux s []

/-- `' '.join(words)`. -/
def joinSp : List PyStr → PyStr
  | [] => []
  | [w] => w
  | w :: ws => w ++ 32 :: joinSp ws

/-- ASCII digit test for one code point. -/
def isDigitChar (c : Nat) : Bool := 48 ≤ c && c ≤ 57

/-- Python `str.isdigit()` on ASCII text: nonempty and all digits. -/
def pyIsDigit (w : PyStr) : Bool := !w.isEmpty && w.all isDigitChar

/-- The closed set of measurement words removed by the normalizer
(`measurement_words` in `normalize_ingredient_name`, app.py lines 109-112). -/
def measurement_words : List PyStr :=
  [str ("cup"), str ("cups"), str ("tbsp"), str ("tablespoon"), str ("tablespoons"),
   str ("tsp"), str ("teaspoon"), str ("teaspoons"),
   str ("oz"), str ("ounce"), str ("ounces"), str ("lb"), str ("pound"), str ("pounds"),
   str ("g"), str ("gram"), str ("grams"), str ("kg"), str ("kilogram"),
   str ("ml"), str ("milliliter"), str ("milliliters"), str ("l"), str ("liter"),
   str ("liters"), str ("pinch"), str ("dash"), str ("handful"),
   str ("clove"), str ("cloves"), str ("slice"), str ("slices"), str ("piece"),
   str ("pieces"), str ("can"), str ("cans"), str ("bunch"), str ("bunches")]

/-- Word filter of the normalizer: keep a word unless it is purely numeric or a
measurement word (app.py lines 117-120). -/
def keepWord (w : PyStr) : Bool := !(pyIsDigit w || measurement_words.contains w)

/-- `normalize_ingredient_name` (app.py lines 100-122): lowercase, strip, split
on whitespace, drop purely numeric and measurement words, rejoin with single
spaces; empty input yields the empty string. -/
def normalize_ingredient_name (name : PyStr) : PyStr :=
  if name.isEmpty then []
  else
    let normalized := pyStrip (pyLower name)
    let words := splitWs normalized
    joinSp (words.filter keepWord)

/-- Page size constant `RECIPES_PER_PAGE` (app.py line 18). -/
def RECIPES_PER_PAGE : Nat := 12

/-- `math.ceil (t / p)` for naturals with `p > 0`. -/
def ceilDiv (t p : Nat) : Nat := (t + p - 1) / p

/-- Total-pages update shared by `generate` (app.py 330-334) and
`load_more_recipes` (587-591): when the reported `totalResults` is nonzero the
recorded value becomes `max 1 (ceil (totalResults / pageSize))`; when it is
zero (or absent, which the code coerces to zero) the previous value is kept. -/
def update_total_pages (prev totalResults pageSize : Nat) : Nat :=
  if totalResults ≠ 0 then max 1 (ceilDiv totalResults pageSize) else prev

/-- Page navigation of `load_more_recipes` (app.py 539-547): direction `prev`
moves to `max 1 (cur - 1)`, anything else (the default is `next`) moves to
`min total (cur + 1)`. -/
def navigate (cur total : Int) (direction : PyStr) : Int :=
  if direction = str ("prev") then max 1 (cur - 1) else min total (cur + 1)

/-- The offset contract `(page - 1) * page_size` (spec §4.4). -/
def offset_for_page (page pageSize : Int) : Int := (page - 1) * pageSize

/-- Offset computed by `generate` (app.py 298-303): pages beyond the first use
`(page - 1) * RECIPES_PER_PAGE`; page 1 goes through the cached page-1 fetch,
which uses offset 0. -/
def generateOffset (page : Int) : Int :=
  if page > 1 then (page - 1) * (RECIPES_PER_PAGE : Int) else 0

/-- Offset computed by `load_more_recipes` (app.py 555-562). -/
def loadMoreOffset (targetPage : Int) : Int := (targetPage - 1) * (RECIPES_PER_PAGE : Int)

/-- Search-history update of `generate` (app.py 277-283): a term already in the
history leaves it unchanged; otherwise the term is inserted at the front and
the list truncated to 5 entries. -/
def addSearchTerm (history : List PyStr) (term : PyStr) : List PyStr :=
  if term ∈ history then history else (term :: history).take 5

/-- History after a sequence of search submissions starting from the empty
session history. -/
def runHistory (terms : List PyStr) : List PyStr := terms.foldl addSearchTerm []

/-- C7: navigation clamping.  For `1 ≤ cur ≤ total`, `next` yields
`min total (cur + 1)`, `prev` yields `max 1 (cur - 1)`, and both targets lie in
`[1, total]`. -/
theorem C7_navigation_clamping (cur total : Int) (h1 : 1 ≤ cur) (h2 : cur ≤ total) :
    navigate cur total (str ("next")) = min total (cur + 1) ∧
    navigate cur total (str ("prev")) = max 1 (cur - 1) ∧
    1 ≤ navigate cur total (str ("next")) ∧ navigate cur total (str ("next")) ≤ total ∧
    1 ≤ navigate cur total (str ("prev")) ∧ navigate cur total (str ("prev")) ≤ total := by
  have hne : ¬ (str ("next") = str ("prev")) := by decide
  refine ⟨by simp [navigate, hne], by simp [navigate], ?_, ?_, ?_, ?_⟩
  · simp only [navigate, hne, if_neg hne]
    omega
  · simp only [navigate, hne, if_neg hne]
    omega
  · simp only [navigate, if_pos rfl]
    omega
  · simp only [navigate, if_pos rfl]
    omega

/-- Witness for C7 at the spec's own examples: `navigate 1 3 prev = 1` and
`navigate 3 3 next = 3`. -/
theorem C7_navigation_clamping_witness :
    navigate 1 3 (str ("prev")) = 1 ∧ navigate 3 3 (str ("next")) = 3 := by
  have h := C7_navigation_clamping 1 3 (by decide) (by decide)
  have h' := C7_navigation_clamping 3 3 (by decide) (by decide)
  exact ⟨by rw [h.2.1]; decide, by rw [h'.1]; decide⟩

/-- C8: offset computation.  For `page ≥ 1`, `page_size ≥ 1`, the contract
offset is `(page - 1) * page_size`, is non-negative, is `0` at page 1, and both
route implementations (`generate`, `load_more_recipes`) compute exactly the
contract offset at page size `RECIPES_PER_PAGE = 12`. -/
theorem C8_offset_computation (page pageSize : Int) (h1 : 1 ≤ page) (h2 : 1 ≤ pageSize) :
    offset_for_page page pageSize = (page - 1) * pageSize ∧
    0 ≤ offset_for_page page pageSize ∧
    offset_for_page 1 pageSize = 0 ∧
    generateOffset page = offset_for_page page 12 ∧
    loadMoreOffset page = offset_for_page page 12 := by
  refine ⟨rfl, ?_, by simp [offset_for_page], ?_, rfl⟩
  · have : 0 ≤ page - 1 := by omega
    exact mul_nonneg this (by omega)
  · by_cases h : page > 1
    · simp [generateOffset, offset_for_page, h, RECIPES_PER_PAGE]
    · have hp : page = 1 := by omega
      simp [generateOffset, offset_for_page, hp]

/-- Witness for C8 at page 2, page size 12 (offset 12, as in the spec's
end-to-end scenario). -/
theorem C8_offset_computation_witness :
    offset_for_page 2 12 = 12 ∧ generateOffset 2 = 12 := by
  have h := C8_offset_computation 2 12 (by decide) (by decide)
  refine ⟨by rw [h.1]; decide, ?_⟩
  · rw [h.2.2.2.1, h.1]; decide

/-- C2 counterexample: within one search session, a later response with a
smaller positive `totalResults` regresses the recorded total_pages.  Recording
`totalResults = 30` gives 3 pages; a subsequent update with `totalResults = 12`
lowers it to 1, refuting "never regresses to a smaller value than already
recorded". -/
theorem C2_total_pages_counterexample :
    update_total_pages (update_total_pages 1 30 12) 12 12 < update_total_pages 1 30 12 := by
  decide

/-- C2 (amended): for positive `totalResults` and positive `pageSize` the
recorded value becomes `max 1 (ceil (totalResults / pageSize))` — stated via the
ceiling characterisation `1 ≤ r`, `totalResults ≤ r * pageSize < totalResults +
pageSize` — irrespective of the previous value (so it can regress); when
`totalResults` is zero or unknown the previous value is kept unchanged. -/
theorem C2_total_pages_update (prev t p : Nat) :
    (t ≠ 0 → p ≠ 0 →
      1 ≤ update_total_pages prev t p ∧
      t ≤ update_total_pages prev t p * p ∧
      update_total_pages prev t p * p < t + p) ∧
    (t = 0 → update_total_pages prev t p = prev) := by
  constructor
  · intro ht hp
    have hp0 : 0 < p := Nat.pos_of_ne_zero hp
    have hq1 : 1 ≤ ceilDiv t p := by
      rw [ceilDiv, Nat.le_div_iff_mul_le hp0]
      omega
    have hmax : max 1 (ceilDiv t p) = ceilDiv t p := by omega
    have hup : update_total_pages prev t p = ceilDiv t p := by
      rw [update_total_pages, if_pos ht, hmax]
    rw [hup]
    obtain ⟨q, hq⟩ : ∃ q, (t + p - 1) / p = q := ⟨_, rfl⟩
    obtain ⟨r, hr⟩ : ∃ r, (t + p - 1) % p = r := ⟨_, rfl⟩
    have hdm := Nat.div_add_mod (t + p - 1) p
    rw [hq, hr] at hdm
    have hmlt : r < p := hr ▸ Nat.mod_lt _ hp0
    have hcd : ceilDiv t p = q := by rw [ceilDiv, hq]
    rw [hcd]
    rw [mul_comm p q] at hdm
    obtain ⟨m, hm⟩ : ∃ m, q * p = m := ⟨_, rfl⟩
    rw [hm] at hdm ⊢
    omega
  · intro ht
    simp [update_total_pages, ht]

/-- Witness for C2 at the spec's own examples: `update_total_pages(25, 12)`
represents 3 pages (`25 ≤ r * 12 < 37` forces `r = 3`), and a zero
`totalResults` leaves a previously recorded value of 7 unchanged. -/
theorem C2_total_pages_update_witness :
    (1 ≤ update_total_pages 1 25 12 ∧
     25 ≤ update_total_pages 1 25 12 * 12 ∧
     update_total_pages 1 25 12 * 12 < 37) ∧
    update_total_pages 7 0 12 = 7 :=
  ⟨(C2_total_pages_update 1 25 12).1 (by decide) (by decide),
   (C2_total_pages_update 7 0 12).2 rfl⟩

/-- C3 counterexample: re-submitting a term already in the history leaves the
history unchanged, so the just-submitted term is not at the front. -/
theorem C3_search_history_counterexample :
    addSearchTerm [str ("a"), str ("b")] (str ("b")) = [str ("a"), str ("b")] ∧
    (addSearchTerm [str ("a"), str ("b")] (str ("b"))).head? ≠ some (str ("b")) := by
  decide

/-- One history update preserves distinctness and the 5-entry bound. -/
theorem addSearchTerm_invariant (history : List PyStr) (term : PyStr)
    (hnd : history.Nodup) (hlen : history.length ≤ 5) :
    (addSearchTerm history term).Nodup ∧ (addSearchTerm history term).length ≤ 5 := by
  by_cases h : term ∈ history
  · simp only [addSearchTerm, if_pos h]
    exact ⟨hnd, hlen⟩
  · unfold addSearchTerm
    rw [if_neg h]
    refine ⟨(List.take_sublist 5 _).nodup ((List.nodup_cons).2 ⟨h, hnd⟩), ?_⟩
    simp [List.length_take]

/-- Any submission sequence starting from a valid history keeps it valid. -/
theorem runHistory_invariant (terms : List PyStr) :
    ∀ h : List PyStr, h.Nodup → h.length ≤ 5 →
      (terms.foldl addSearchTerm h).Nodup ∧ (terms.foldl addSearchTerm h).length ≤ 5 := by
  induction terms with
  | nil => intro h hnd hlen; exact ⟨hnd, hlen⟩
  | cons t ts ih =>
    intro h hnd hlen
    have h1 := addSearchTerm_invariant h t hnd hlen
    exact ih _ h1.1 h1.2

/-- C3 (amended): after each search submission the history has at most 5
entries and no duplicates (and any submission sequence starting from the empty
session history keeps this invariant); a term not already present is placed at
the front, but re-submitting a term already in the history leaves the history
unchanged — the term is not moved to the front. -/
theorem C3_search_history (history : List PyStr) (term : PyStr)
    (hnd : history.Nodup) (hlen : history.length ≤ 5) :
    (addSearchTerm history term).Nodup ∧
    (addSearchTerm history term).length ≤ 5 ∧
    (term ∉ history → (addSearchTerm history term).head? = some term) ∧
    (term ∈ history → addSearchTerm history term = history) ∧
    (∀ terms : List PyStr, (runHistory terms).Nodup ∧ (runHistory terms).length ≤ 5) := by
  refine ⟨(addSearchTerm_invariant history term hnd hlen).1,
          (addSearchTerm_invariant history term hnd hlen).2, ?_, ?_, ?_⟩
  · intro h
    unfold addSearchTerm
    rw [if_neg h]
    rw [show (5 : Nat) = 4 + 1 from rfl, List.take_succ_cons]
    rfl
  · intro h
    simp only [addSearchTerm, if_pos h]
  · intro terms
    exact runHistory_invariant terms [] (by simp) (by simp)

/-- Witness for C3: with history `["a"]`, submitting the new term `"b"` keeps
the history duplicate-free and puts `"b"` at the front. -/
theorem C3_search_history_witness :
    (addSearchTerm [str ("a")] (str ("b"))).Nodup ∧
    (addSearchTerm [str ("a")] (str ("b"))).head? = some (str ("b")) := by
  have h := C3_search_history [str ("a")] (str ("b")) (by decide) (by decide)
  exact ⟨h.1, h.2.2.1 (by decide)⟩

/-- `isPrefOf needle hay`: `needle` is an initial segment of `hay`. -/
def isPrefOf : PyStr → PyStr → Bool
  | [], _ => true
  | _ :: _, [] => false
  | a :: as, b :: bs => a == b && isPrefOf as bs

/-- Python's substring test `needle in hay` (contiguous; the empty string is a
substring of everything). -/
def substrB (needle : PyStr) : PyStr → Bool
  | [] => isPrefOf needle []
  | c :: t => isPrefOf needle (c :: t) || substrB needle t

/-- One upstream `extendedIngredients` entry, with the optional keys the code
reads; `none` stands for an absent key. -/
structure IngRecord where
  name : Option PyStr
  original : Option PyStr
  originalName : Option PyStr

/-- Python `a or b` where `a` is an optional string: yields `b` when `a` is
`None` or empty (falsy). -/
def pyOrStr (a : Option PyStr) (b : PyStr) : PyStr :=
  match a with
  | some s => if s.isEmpty then b else s
  | none => b

/-- `original_txt = ing.get("original") or ing.get("originalName") or nm` with
`nm = (ing.get("name") or "").lower()` (app.py 398-399). -/
def originalTxt (ing : IngRecord) : PyStr :=
  pyOrStr ing.original (pyOrStr ing.originalName (pyLower (pyOrStr ing.name [])))

/-- The five-clause fuzzy match of app.py 412-417, applied to the normalized
provided form `np` and the normalized recipe form `ni` (the final clause of the
source duplicates the word-level provided-into-recipe test and is kept). -/
def matchCond (np ni : PyStr) : Bool :=
  substrB np ni || substrB ni np ||
  (splitWs np).any (fun w => decide (w.length > 2) && substrB w ni) ||
  (splitWs ni).any (fun w => decide (w.length > 2) && substrB w np) ||
  (splitWs np).any (fun w => decide (w.length > 2) && substrB w ni)

/-- `is_used` for one recipe ingredient record: some provided name (already
lowercased, as `provided_names` holds `x.lower()`) matches under `matchCond`
(app.py 405-420). -/
def isUsed (provided : List PyStr) (ing : IngRecord) : Bool :=
  let ni := normalize_ingredient_name (originalTxt ing)
  provided.any (fun p => matchCond (normalize_ingredient_name p) ni)

/-- The matcher loop of app.py 397-427: classify each record in input order,
collecting display texts into the `used` and `missed` lists. -/
def matchIngredients (provided : List PyStr) : List IngRecord → List PyStr × List PyStr
  | [] => ([], [])
  | ing :: rest =>
    let um := matchIngredients provided rest
    if isUsed provided ing then (originalTxt ing :: um.1, um.2)
    else (um.1, originalTxt ing :: um.2)

/-- C5: matcher partition and order preservation.  Every recipe ingredient is
placed in exactly one of `used`/`missed` (lengths add up), both outputs are
order-preserving subsequences of the input display texts, and their
concatenation is a permutation (multiset equality) of the input texts. -/
theorem C5_matcher_partition (provided : List PyStr) (extended : List IngRecord) :
    (matchIngredients provided extended).1.length
        + (matchIngredients provided extended).2.length = extended.length ∧
    (matchIngredients provided extended).1.Sublist (extended.map originalTxt) ∧
    (matchIngredients provided extended).2.Sublist (extended.map originalTxt) ∧
    ((matchIngredients provided extended).1 ++ (matchIngredients provided extended).2).Perm
        (extended.map originalTxt) := by
  induction extended with
  | nil => simp [matchIngredients]
  | cons ing rest ih =>
    obtain ⟨hlen, hsub1, hsub2, hperm⟩ := ih
    by_cases h : isUsed provided ing = true
    · simp only [matchIngredients, h, if_true, List.map_cons]
      refine ⟨by simp; omega, hsub1.cons₂ _, hsub2.cons _, ?_⟩
      simpa using hperm.cons (originalTxt ing)
    · simp only [matchIngredients, h, if_false, Bool.false_eq_true, List.map_cons]
      refine ⟨by simp; omega, hsub1.cons _, hsub2.cons₂ _, ?_⟩
      exact List.perm_middle.trans (hperm.cons (originalTxt ing))

/-- C6: over-matching bias at the spec's example.  With provided `{"egg"}`, the
record whose `original` text is `"2 large eggs, beaten"` is classified `used`,
and in particular the word-level clause fires: a word of length > 2 of the
normalized provided form (`"egg"`) is a substring of the normalized recipe
form. -/
theorem C6_egg_overmatching :
    isUsed [str ("egg")] ⟨none, some (str ("2 large eggs, beaten")), none⟩ = true ∧
    (splitWs (normalize_ingredient_name (str ("egg")))).any
      (fun w => decide (w.length > 2) && substrB w
        (normalize_ingredient_name (str ("2 large eggs, beaten")))) = true := by
  decide

/-- Python banker's rounding `round(x)` of an exact rational to an integer
(half-to-even, as `round` behaves on exactly-representable halves). -/
def pyRoundQ (x : Rat) : Int :=
  let f := ⌊x⌋
  if x - f < 1/2 then f
  else if 1/2 < x - f then f + 1
  else if f % 2 = 0 then f else f + 1

/-- Python `round(x, 1)` of an exact rational. -/
def pyRound1 (x : Rat) : Rat := (pyRoundQ (x * 10) : Rat) / 10

/-- One upstream nutrient record `{name, amount}`; a missing `amount` is read
by the code as `nutrient.get('amount', 0)`, so the amount is total here. -/
structure Nutrient where
  name : PyStr
  amount : Rat

/-- The three nutrient categories the extractor recognises. -/
inductive NutCat
  | calories
  | protein
  | carbs
  deriving DecidableEq

/-- Category of a nutrient name (app.py 354-360): the lowercased name is tested
for the substrings "calorie", then "protein", then "carbohydrate" in an
if/elif chain. -/
def nutCat (nm : PyStr) : Option NutCat :=
  let n := pyLower nm
  if substrB (str ("calorie")) n then some NutCat.calories
  else if substrB (str ("protein")) n then some NutCat.protein
  else if substrB (str ("carbohydrate")) n then some NutCat.carbs
  else none

/-- The nutrition dictionary built by the scan; `none` = key never assigned. -/
structure Nutrition where
  calories : Option Int
  protein : Option Rat
  carbs : Option Rat
  deriving DecidableEq

/-- The initial empty nutrition dictionary. -/
def emptyNutrition : Nutrition := ⟨none, none, none⟩

/-- One step of the nutrient scan: plain dictionary assignment, overwriting any
earlier value for the same category (app.py 353-360). -/
def nutStep (acc : Nutrition) (n : Nutrient) : Nutrition :=
  match nutCat n.name with
  | some NutCat.calories => { acc with calories := some (pyRoundQ n.amount) }
  | some NutCat.protein => { acc with protein := some (pyRound1 n.amount) }
  | some NutCat.carbs => { acc with carbs := some (pyRound1 n.amount) }
  | none => acc

/-- The nutrient-record scan of app.py 350-360 (and its copies at 451-458,
610-617, 688-695). -/
def extractNutrition (ns : List Nutrient) : Nutrition := ns.foldl nutStep emptyNutrition

/-- Field projection of the nutrition dictionary by category (calories cast to
`Rat` for uniformity). -/
def nutField (c : NutCat) (x : Nutrition) : Option Rat :=
  match c with
  | NutCat.calories => x.calories.map (fun i => (i : Rat))
  | NutCat.protein => x.protein
  | NutCat.carbs => x.carbs

/-- The value the scan stores for one record of category `c`. -/
def nutValue (c : NutCat) (n : Nutrient) : Rat :=
  match c with
  | NutCat.calories => (pyRoundQ n.amount : Rat)
  | NutCat.protein => pyRound1 n.amount
  | NutCat.carbs => pyRound1 n.amount

/-- The last record of category `c` in the sequence, if any. -/
def lastMatch (c : NutCat) (ns : List Nutrient) : Option Nutrient :=
  (ns.filter (fun n => nutCat n.name == some c)).getLast?

theorem getLast?_cons_eq {α : Type} (a : α) (l : List α) :
    (a :: l).getLast? = if l.isEmpty then some a else l.getLast? := by
  cases l with
  | nil => rfl
  | cons b t => simp [List.getLast?_cons_cons]

theorem nutField_nutStep_hit (acc : Nutrition) (n : Nutrient) (c : NutCat)
    (h : nutCat n.name = some c) :
    nutField c (nutStep acc n) = some (nutValue c n) := by
  cases c <;> simp [nutStep, h, nutField, nutValue]

theorem nutField_nutStep_miss (acc : Nutrition) (n : Nutrient) (c : NutCat)
    (h : ¬ nutCat n.name = some c) :
    nutField c (nutStep acc n) = nutField c acc := by
  unfold nutStep
  cases hm : nutCat n.name with
  | none => rfl
  | some c' =>
    cases c <;> cases c' <;> simp_all [nutField]

/-- The scan computes, for each category, exactly the value of the last
matching record (generalized over the accumulator). -/
theorem foldl_nutStep_lastMatch (c : NutCat) (ns : List Nutrient) :
    ∀ acc : Nutrition,
      nutField c (ns.foldl nutStep acc) =
        match lastMatch c ns with
        | some n => some (nutValue c n)
        | none => nutField c acc := by
  induction ns with
  | nil => intro acc; rfl
  | cons n rest ih =>
    intro acc
    rw [List.foldl_cons, ih]
    unfold lastMatch
    rw [List.filter_cons]
    by_cases h : nutCat n.name = some c
    · simp only [h, beq_self_eq_true, if_true, getLast?_cons_eq]
      by_cases hr : (rest.filter (fun m => nutCat m.name == some c)).isEmpty
      · have he : (rest.filter (fun m => nutCat m.name == some c)) = [] :=
          List.isEmpty_iff.mp hr
        rw [if_pos hr, he]
        simp [nutField_nutStep_hit acc n c h]
      · rw [if_neg hr]
        cases hl : (rest.filter (fun m => nutCat m.name == some c)).getLast? with
        | none =>
          exact absurd (List.getLast?_eq_none_iff.mp hl) (by simpa using hr)
        | some m => rfl
    · have hb : (nutCat n.name == some c) = false := by
        simp [h]
      rw [hb, if_neg (by simp)]
      cases hl : (rest.filter (fun m => nutCat m.name == some c)).getLast? with
      | none => simp [nutField_nutStep_miss acc n c h]
      | some m => rfl

/-- C9: nutrition extraction is last-match-wins.  For every record sequence and
every category, the extracted field is the (rounded) amount of the last record
of that category, with no aggregation — and at the spec's example, two Protein
records with amounts 5 and 8 extract protein 8. -/
theorem C9_nutrition_last_match (ns : List Nutrient) :
    (∀ c : NutCat,
      nutField c (extractNutrition ns) =
        match lastMatch c ns with
        | some n => some (nutValue c n)
        | none => none) ∧
    (extractNutrition [⟨str ("Protein"), 5⟩, ⟨str ("Protein"), 8⟩]).protein = some 8 := by
  constructor
  · intro c
    rw [extractNutrition, foldl_nutStep_lastMatch c ns emptyNutrition]
    cases lastMatch c ns with
    | none => cases c <;> rfl
    | some m => rfl
  · have hcat : nutCat (str ("Protein")) = some NutCat.protein := by decide
    have h8 : pyRound1 ((8 : Rat)) = 8 := by
      have h80 : ((8 : Rat) * 10) = 80 := by norm_num
      rw [pyRound1, h80, pyRoundQ]
      norm_num
    show (nutStep (nutStep emptyNutrition ⟨str ("Protein"), 5⟩) ⟨str ("Protein"), 8⟩).protein
        = some 8
    rw [nutStep, nutStep]
    simp only [hcat]
    rw [h8]

/-- One breakdown value of `calorie_lookup`: dataset kcal/kJ figures, or the
"N/A" marker for an item absent from the dataset. -/
inductive CalEntry
  | vals (kcal kj : Int)
  | na
  deriving DecidableEq

/-- The dataset lookup key `item.strip().lower()` (data.py line 27). -/
def calKey (item : PyStr) : PyStr := pyLower (pyStrip item)

/-- Python dict assignment `d[k] = v` on an insertion-ordered association
list: overwrite in place when the key exists, append otherwise. -/
def dictInsert {V : Type} (k : PyStr) (v : V) : List (PyStr × V) → List (PyStr × V)
  | [] => [(k, v)]
  | (k', v') :: rest => if k = k' then (k, v) :: rest else (k', v') :: dictInsert k v rest

/-- The loop of `calorie_lookup` (data.py 26-35): accumulate kcal/kJ totals
over found items and build the breakdown dict keyed by the original item
strings.  `data` abstracts the dict parsed from `data/calories.csv`, an
external data file that is not part of the source. -/
def calLoop (data : PyStr → Option (Int × Int)) :
    List PyStr → (Int × Int) → List (PyStr × CalEntry) → (Int × Int) × List (PyStr × CalEntry)
  | [], tot, bd => (tot, bd)
  | item :: rest, tot, bd =>
    match data (calKey item) with
    | some kv =>
        calLoop data rest (tot.1 + kv.1, tot.2 + kv.2)
          (dictInsert item (CalEntry.vals kv.1 kv.2) bd)
    | none => calLoop data rest tot (dictInsert item CalEntry.na bd)

/-- `calorie_lookup` (data.py 1-38), parametrized by the parsed dataset map. -/
def calorie_lookup (data : PyStr → Option (Int × Int)) (ingredients : List PyStr) :
    (Int × Int) × List (PyStr × CalEntry) :=
  calLoop data ingredients (0, 0) []

/-- The breakdown entry the loop records for an item. -/
def calEntryOf (data : PyStr → Option (Int × Int)) (item : PyStr) : CalEntry :=
  match data (calKey item) with
  | some kv => CalEntry.vals kv.1 kv.2
  | none => CalEntry.na

/-- kcal contribution of one item to the totals (0 when not found). -/
def kcalOf (data : PyStr → Option (Int × Int)) (item : PyStr) : Int :=
  match data (calKey item) with
  | some kv => kv.1
  | none => 0

/-- kJ contribution of one item to the totals (0 when not found). -/
def kjOf (data : PyStr → Option (Int × Int)) (item : PyStr) : Int :=
  match data (calKey item) with
  | some kv => kv.2
  | none => 0

/-- Closed form of the loop: totals are the running sums of per-item
contributions, and the breakdown is the fold of dict assignments. -/
theorem calLoop_spec (data : PyStr → Option (Int × Int)) (items : List PyStr) :
    ∀ (tot : Int × Int) (bd : List (PyStr × CalEntry)),
      calLoop data items tot bd =
        ((tot.1 + (items.map (kcalOf data)).sum, tot.2 + (items.map (kjOf data)).sum),
         items.foldl (fun b i => dictInsert i (calEntryOf data i) b) bd) := by
  induction items with
  | nil => intro tot bd; simp [calLoop]
  | cons item rest ih =>
    intro tot bd
    cases hd : data (calKey item) with
    | some kv =>
      rw [show calLoop data (item :: rest) tot bd
            = calLoop data rest (tot.1 + kv.1, tot.2 + kv.2)
                (dictInsert item (CalEntry.vals kv.1 kv.2) bd) by
          simp [calLoop, hd]]
      rw [ih]
      simp only [List.map_cons, List.sum_cons, List.foldl_cons]
      refine congrArg₂ _ (by simp [kcalOf, kjOf, hd]; constructor <;> ring) ?_
      simp [calEntryOf, hd]
    | none =>
      rw [show calLoop data (item :: rest) tot bd
            = calLoop data rest tot (dictInsert item CalEntry.na bd) by
          simp [calLoop, hd]]
      rw [ih]
      simp only [List.map_cons, List.sum_cons, List.foldl_cons]
      refine congrArg₂ _ (by simp [kcalOf, kjOf, hd]) ?_
      simp [calEntryOf, hd]

/-- Assigning a fresh key appends it to the dict. -/
theorem dictInsert_fresh {V : Type} (k : PyStr) (v : V) (bd : List (PyStr × V))
    (h : k ∉ bd.map Prod.fst) : dictInsert k v bd = bd ++ [(k, v)] := by
  induction bd with
  | nil => rfl
  | cons p rest ih =>
    simp only [List.map_cons, List.mem_cons] at h
    push_neg at h
    simp only [dictInsert]
    rw [if_neg (by exact h.1), ih h.2]
    rfl

/-- Folding dict assignments of pairwise-distinct fresh keys appends them in
order. -/
theorem foldl_dictInsert_nodup {V : Type} (f : PyStr → V) (items : List PyStr) :
    ∀ bd : List (PyStr × V), items.Nodup → (∀ i ∈ items, i ∉ bd.map Prod.fst) →
      items.foldl (fun b i => dictInsert i (f i) b) bd = bd ++ items.map (fun i => (i, f i)) := by
  induction items with
  | nil => intro bd _ _; simp
  | cons item rest ih =>
    intro bd hnd hfresh
    simp only [List.foldl_cons]
    rw [dictInsert_fresh item (f item) bd (hfresh item (by simp))]
    rw [ih (bd ++ [(item, f item)]) (List.nodup_cons.mp hnd).2]
    · simp
    · intro i hi
      simp only [List.map_append, List.mem_append]
      push_neg
      refine ⟨hfresh i (by simp [hi]), ?_⟩
      have : i ≠ item := by
        intro he
        exact (List.nodup_cons.mp hnd).1 (he ▸ hi)
      simp [this]

/-- A one-entry dataset: "egg" has 155 kcal and 648 kJ per 100 g. -/
def sampleCalorieData : PyStr → Option (Int × Int) :=
  fun k => if k = str ("egg") then some (155, 648) else none

/-- C10 counterexample: with the duplicate input `["egg", "egg"]` the breakdown
dict collapses to a single entry while the input has two items (dict keys are
the original strings), so the breakdown does not have exactly one entry per
input item; meanwhile the totals count the found item twice. -/
theorem C10_calorie_lookup_counterexample :
    ((calorie_lookup sampleCalorieData [str ("egg"), str ("egg")]).2).length = 1 ∧
    ([str ("egg"), str ("egg")] : List PyStr).length = 2 ∧
    (calorie_lookup sampleCalorieData [str ("egg"), str ("egg")]).1 = (310, 1296) := by
  decide

/-- C10 (amended): for a duplicate-free list of ingredient strings the
breakdown has exactly one entry per input item, in input order, keyed by the
original string; an item whose stripped-lowercased form is in the dataset gets
that entry's kcal/kJ values and an item not found gets the "N/A" marker; the
totals are the sums of kcal and kJ over the found items only (a not-found item
contributes zero).  Duplicate input items collapse to a single breakdown entry
while still being counted once per occurrence in the totals. -/
theorem C10_calorie_lookup (data : PyStr → Option (Int × Int)) (items : List PyStr)
    (hnd : items.Nodup) :
    (calorie_lookup data items).2 = items.map (fun i => (i, calEntryOf data i)) ∧
    (calorie_lookup data items).1
      = ((items.map (kcalOf data)).sum, (items.map (kjOf data)).sum) ∧
    (∀ i kcal kj, data (calKey i) = some (kcal, kj) →
      calEntryOf data i = CalEntry.vals kcal kj) ∧
    (∀ i, data (calKey i) = none →
      calEntryOf data i = CalEntry.na ∧ kcalOf data i = 0 ∧ kjOf data i = 0) := by
  refine ⟨?_, ?_, ?_, ?_⟩
  · rw [calorie_lookup, calLoop_spec]
    simp only
    rw [foldl_dictInsert_nodup (calEntryOf data) items [] hnd (by simp)]
    simp
  · rw [calorie_lookup, calLoop_spec]
    simp
  · intro i kcal kj h
    simp [calEntryOf, h]
  · intro i h
    simp [calEntryOf, kcalOf, kjOf, h]

/-- Witness for C10: over `sampleCalorieData`, the distinct items
`["egg", "butter"]` give one breakdown entry each ("egg" found, "butter" N/A)
and totals counting only the found item. -/
theorem C10_calorie_lookup_witness :
    (calorie_lookup sampleCalorieData [str ("egg"), str ("butter")]).2
      = [(str ("egg"), CalEntry.vals 155 648), (str ("butter"), CalEntry.na)] ∧
    (calorie_lookup sampleCalorieData [str ("egg"), str ("butter")]).1 = (155, 648) := by
  have h := C10_calorie_lookup sampleCalorieData [str ("egg"), str ("butter")] (by decide)
  exact ⟨by rw [h.1]; decide, by rw [h.2.1]; decide⟩

/-- The primary complexSearch record `r`, with the fields `generate`
(app.py 341-485) reads.  `extendedIngredients` is `r.get(...) or []`;
`nutrients` is `r["nutrition"]["nutrients"]` when that key chain exists;
absent optional keys are `none`; absent boolean flags are falsy, hence
`false`. -/
structure SearchRec where
  extendedIngredients : List IngRecord
  nutrients : Option (List Nutrient)
  readyInMinutes : Option Int
  servings : Option Int
  vegetarian : Bool
  vegan : Bool
  glutenFree : Bool
  dairyFree : Bool

/-- The supplementary detail record; the whole record is absent (`none` at use
sites) when the detail fetch failed and `recipe_details` stayed the falsy `{}`.
`nutrition` is the detail's nutrient list when `recipe_details.get('nutrition')`
is truthy. -/
structure DetailRec where
  extendedIngredients : List IngRecord
  nutrition : Option (List Nutrient)
  readyInMinutes : Option Int
  servings : Option Int
  vegetarian : Bool
  vegan : Bool
  glutenFree : Bool
  dairyFree : Bool

/-- `recipe_details.get("extendedIngredients")` with `{}` giving the falsy
default. -/
def detExtended (d : Option DetailRec) : List IngRecord :=
  match d with
  | some dr => dr.extendedIngredients
  | none => []

/-- `recipe_details.get('nutrition')` (with its `nutrients` list). -/
def detNutrition (d : Option DetailRec) : Option (List Nutrient) :=
  d.bind (fun dr => dr.nutrition)

/-- `recipe_details.get('readyInMinutes')`. -/
def detReady (d : Option DetailRec) : Option Int :=
  d.bind (fun dr => dr.readyInMinutes)

/-- `recipe_details.get('servings')`. -/
def detServings (d : Option DetailRec) : Option Int :=
  d.bind (fun dr => dr.servings)

/-- Python `a or b` on optional integers: `a` unless it is `None` or `0`
(falsy). -/
def pyOrInt (a b : Option Int) : Option Int :=
  match a with
  | some v => if v = 0 then b else some v
  | none => b

/-- Nutrition parsed from the primary record (app.py 350-360): the scan runs
only when the record carries a truthy (nonempty) nutrient list. -/
def primaryNutrition (r : SearchRec) : Nutrition :=
  match r.nutrients with
  | some l => if l.isEmpty then emptyNutrition else extractNutrition l
  | none => emptyNutrition

/-- Truthiness of the Python `nutrition` dict: empty iff no key was set. -/
def Nutrition.isEmptyN (x : Nutrition) : Bool :=
  x.calories.isNone && x.protein.isNone && x.carbs.isNone

/-- Display text used by the no-ingredients fallback (app.py 441-444):
`ing.get("original") or ing.get("originalName") or ing.get("name", "")`. -/
def fallbackTxt (ing : IngRecord) : PyStr :=
  pyOrStr ing.original (pyOrStr ing.originalName (ing.name.getD []))

/-- Dietary badge list built from the chosen flag source (app.py 462-472). -/
def dietaryBadges (veg vgn gf df : Bool) : List PyStr :=
  (if veg then [str ("Vegetarian")] else []) ++
  (if vgn then [str ("Vegan")] else []) ++
  (if gf then [str ("Gluten Free")] else []) ++
  (if df then [str ("Dairy Free")] else [])

/-- Ingredient-list resolution (app.py 347, 384-386): the primary record's
`extendedIngredients` is used; only when it is empty and the detail record has
a nonempty one does the detail's list replace it. -/
def resolvedExtended (r : SearchRec) (d : Option DetailRec) : List IngRecord :=
  if r.extendedIngredients.isEmpty && !(detExtended d).isEmpty then detExtended d
  else r.extendedIngredients

/-- `used`/`missed` computation (app.py 397-446): the matcher loop over the
resolved ingredient list, then the both-empty fallback (a placeholder entry
when there are no ingredients at all). -/
def resolvedMatch (provided : List PyStr) (r : SearchRec) (d : Option DetailRec) :
    List PyStr × List PyStr :=
  let extended := resolvedExtended r d
  let um := matchIngredients provided extended
  if um.1.isEmpty && um.2.isEmpty then
    (if !extended.isEmpty then
      (um.1, (extended.map fallbackTxt).filter (fun t => !t.isEmpty))
     else (um.1, [str ("Ingredients not available")]))
  else um

/-- Nutrition resolution (app.py 350-360, 449-458): the primary record's
parsed nutrition is kept when nonempty; only when it is empty and the detail
record has a truthy nutrition payload is the detail's parsed. -/
def resolvedNutrition (r : SearchRec) (d : Option DetailRec) : Nutrition :=
  let nut1 := primaryNutrition r
  if nut1.isEmptyN then
    match detNutrition d with
    | some l => extractNutrition l
    | none => nut1
  else nut1

/-- The assembled output card (app.py 474-484), restricted to the fields the
claim is about (id/title/image are passed through unchanged). -/
structure RecipeCard where
  used : List PyStr
  missed : List PyStr
  nutrition : Option Nutrition
  readyInMinutes : Option Int
  servings : Option Int
  dietary_info : List PyStr

/-- The assembled per-recipe card (app.py 474-484): `nutrition` is `None` when
the resolved dict stayed empty; `readyInMinutes`/`servings` use Python `or`
with the detail record on the left; dietary badges come from
`src = recipe_details or r`. -/
def assembleCard (provided : List PyStr) (r : SearchRec) (d : Option DetailRec) :
    RecipeCard where
  used := (resolvedMatch provided r d).1
  missed := (resolvedMatch provided r d).2
  nutrition := if (resolvedNutrition r d).isEmptyN then none else some (resolvedNutrition r d)
  readyInMinutes := pyOrInt (detReady d) r.readyInMinutes
  servings := pyOrInt (detServings d) r.servings
  dietary_info :=
    match d with
    | some dr => dietaryBadges dr.vegetarian dr.vegan dr.glutenFree dr.dairyFree
    | none => dietaryBadges r.vegetarian r.vegan r.glutenFree r.dairyFree

/-- A primary record that carries its own `readyInMinutes` of 10. -/
def rPrimaryReady : SearchRec := ⟨[], none, some 10, none, false, false, false, false⟩

/-- A detail record reporting `readyInMinutes` of 20 for the same recipe. -/
def dDetailReady : DetailRec := ⟨[], none, some 20, none, false, false, false, false⟩

/-- C1 counterexample: the primary search record has `readyInMinutes = 10`,
yet the assembled card carries the detail record's 20 — `readyInMinutes` (like
`servings` and the dietary flags) prefers the supplementary detail record, not
the primary record, refuting the claimed resolution order. -/
theorem C1_field_resolution_counterexample :
    rPrimaryReady.readyInMinutes = some 10 ∧
    (assembleCard [] rPrimaryReady (some dDetailReady)).readyInMinutes = some 20 := by
  decide

/-- The matcher loop never leaves both outputs empty on a nonempty input. -/
theorem matchIngredients_not_both_empty (provided : List PyStr) (ing : IngRecord)
    (rest : List IngRecord) :
    ((matchIngredients provided (ing :: rest)).1.isEmpty &&
     (matchIngredients provided (ing :: rest)).2.isEmpty) = false := by
  by_cases h : isUsed provided ing = true
  · simp [matchIngredients, h]
  · simp [matchIngredients, h]

/-- C1 (amended): per-field resolution of the assembled card.  Ingredients and
nutrition prefer the PRIMARY record, falling back to the detail record only
when the primary's are empty; `readyInMinutes`, `servings` and the dietary
flags prefer the DETAIL record, falling back to the primary one only when the
detail value is falsy (for flags: only when the whole detail record is
absent). -/
theorem C1_field_resolution (provided : List PyStr) (r : SearchRec) (d : Option DetailRec) :
    (r.extendedIngredients ≠ [] →
      ((assembleCard provided r d).used, (assembleCard provided r d).missed)
        = matchIngredients provided r.extendedIngredients) ∧
    (r.extendedIngredients = [] → detExtended d ≠ [] →
      ((assembleCard provided r d).used, (assembleCard provided r d).missed)
        = matchIngredients provided (detExtended d)) ∧
    ((primaryNutrition r).isEmptyN = false →
      (assembleCard provided r d).nutrition = some (primaryNutrition r)) ∧
    ((primaryNutrition r).isEmptyN = true → ∀ l, detNutrition d = some l →
      (extractNutrition l).isEmptyN = false →
      (assembleCard provided r d).nutrition = some (extractNutrition l)) ∧
    (∀ v : Int, v ≠ 0 → detReady d = some v →
      (assembleCard provided r d).readyInMinutes = some v) ∧
    ((detReady d = none ∨ detReady d = some 0) →
      (assembleCard provided r d).readyInMinutes = r.readyInMinutes) ∧
    (∀ v : Int, v ≠ 0 → detServings d = some v →
      (assembleCard provided r d).servings = some v) ∧
    ((detServings d = none ∨ detServings d = some 0) →
      (assembleCard provided r d).servings = r.servings) ∧
    (∀ dr, d = some dr →
      (assembleCard provided r d).dietary_info
        = dietaryBadges dr.vegetarian dr.vegan dr.glutenFree dr.dairyFree) ∧
    (d = none →
      (assembleCard provided r d).dietary_info
        = dietaryBadges r.vegetarian r.vegan r.glutenFree r.dairyFree) := by
  refine ⟨?_, ?_, ?_, ?_, ?_, ?_, ?_, ?_, ?_, ?_⟩
  · intro h
    cases hl : r.extendedIngredients with
    | nil => exact absurd hl h
    | cons ing rest =>
      have hre : resolvedExtended r d = ing :: rest := by
        simp [resolvedExtended, hl]
      simp only [assembleCard]
      simp only [resolvedMatch, hre, matchIngredients_not_both_empty, Bool.false_eq_true,
        if_false]
  · intro h hd
    cases hde : detExtended d with
    | nil => exact absurd hde hd
    | cons ing rest =>
      have hre : resolvedExtended r d = ing :: rest := by
        simp [resolvedExtended, h, hde]
      simp only [assembleCard]
      simp only [resolvedMatch, hre, matchIngredients_not_both_empty, Bool.false_eq_true,
        if_false]
  · intro h
    simp only [assembleCard, resolvedNutrition]
    rw [if_neg (by simp [h])]
    rw [if_neg (by simp [h])]
  · intro h l hl hne
    simp only [assembleCard, resolvedNutrition]
    rw [if_pos h, hl]
    rw [if_neg (by simp [hne])]
  · intro v hv hd
    simp [assembleCard, pyOrInt, hd, hv]
  · intro h
    rcases h with h | h <;> simp [assembleCard, pyOrInt, h]
  · intro v hv hd
    simp [assembleCard, pyOrInt, hd, hv]
  · intro h
    rcases h with h | h <;> simp [assembleCard, pyOrInt, h]
  · intro dr hd
    subst hd
    simp [assembleCard]
  · intro hd
    subst hd
    simp [assembleCard]

/-- A primary record with its own ingredients, nutrition, ready time 10 and
servings 4. -/
def rSample : SearchRec :=
  ⟨[⟨some (str ("egg")), some (str ("2 eggs")), none⟩],
   some [⟨str ("Protein"), 8⟩], some 10, some 4, true, false, false, false⟩

/-- A detail record with no ingredients or servings, ready time 20, vegan. -/
def dSample : DetailRec := ⟨[], none, some 20, none, false, true, false, false⟩

/-- Witness for C1: with both records present, the card takes the detail's
`readyInMinutes` (20), falls back to the primary's `servings` (4), takes the
detail's dietary flags (Vegan), matches ingredients from the primary list, and
keeps the primary's parsed nutrition. -/
theorem C1_field_resolution_witness :
    (assembleCard [str ("egg")] rSample (some dSample)).readyInMinutes = some 20 ∧
    (assembleCard [str ("egg")] rSample (some dSample)).servings = some 4 ∧
    (assembleCard [str ("egg")] rSample (some dSample)).dietary_info = [str ("Vegan")] ∧
    ((assembleCard [str ("egg")] rSample (some dSample)).used,
     (assembleCard [str ("egg")] rSample (some dSample)).missed)
      = matchIngredients [str ("egg")] rSample.extendedIngredients ∧
    (assembleCard [str ("egg")] rSample (some dSample)).nutrition
      = some (primaryNutrition rSample) := by
  obtain ⟨h1, h2, h3, h4, h5, h6, h7, h8, h9, h10⟩ :=
    C1_field_resolution [str ("egg")] rSample (some dSample)
  refine ⟨?_, ?_, ?_, h1 (by simp [rSample]), h3 (by decide)⟩
  · exact h5 20 (by decide) (by decide)
  · rw [h8 (Or.inl (by decide))]
    decide
  · rw [h9 dSample rfl]
    decide

/-- ASCII lower-casing is idempotent on a code point. -/
theorem pyLowerChar_idem (c : Nat) : pyLowerChar (pyLowerChar c) = pyLowerChar c := by
  by_cases h : 65 ≤ c ∧ c ≤ 90
  · simp only [pyLowerChar, if_pos h]
    rw [if_neg (by omega)]
  · simp only [pyLowerChar, if_neg h]

/-- A map whose function fixes every element of the list is the identity. -/
theorem map_fixed_eq_self (f : Nat → Nat) :
    ∀ s : PyStr, (∀ c ∈ s, f c = c) → s.map f = s := by
  intro s h
  induction s with
  | nil => rfl
  | cons a t ih =>
    simp only [List.map_cons, h a (by simp), List.cons.injEq, true_and]
    exact ih (fun c hc => h c (by simp [hc]))

/-- Soundness of the split: every produced word is nonempty, whitespace-free,
and drawn from the input (or from the accumulated current word). -/
theorem splitWsAux_sound (s : PyStr) :
    ∀ cur : PyStr, (∀ c ∈ cur, isWsChar c = false) →
      ∀ w ∈ splitWsAux s cur,
        w ≠ [] ∧ ∀ c ∈ w, isWsChar c = false ∧ (c ∈ s ∨ c ∈ cur) := by
  induction s with
  | nil =>
    intro cur hcur w hw
    simp only [splitWsAux] at hw
    by_cases hc : cur.isEmpty
    · rw [if_pos hc] at hw
      simp at hw
    · rw [if_neg hc] at hw
      have hwc : w = cur.reverse := by simpa using hw
      subst hwc
      refine ⟨by simpa [List.reverse_eq_nil_iff] using (mt List.isEmpty_iff.mpr hc), ?_⟩
      intro c hcw
      exact ⟨hcur c (List.mem_reverse.mp hcw), Or.inr (List.mem_reverse.mp hcw)⟩
  | cons a rest ih =>
    intro cur hcur w hw
    simp only [splitWsAux] at hw
    by_cases ha : isWsChar a = true
    · rw [if_pos ha] at hw
      by_cases hc : cur.isEmpty
      · rw [if_pos hc] at hw
        obtain ⟨h1, h2⟩ := ih [] (by simp) w hw
        refine ⟨h1, fun c hcw => ⟨(h2 c hcw).1, ?_⟩⟩
        rcases (h2 c hcw).2 with h | h
        · exact Or.inl (List.mem_cons_of_mem a h)
        · simp at h
      · rw [if_neg hc] at hw
        rcases List.mem_cons.mp hw with hwc | hw
        · subst hwc
          refine ⟨by simpa [List.reverse_eq_nil_iff] using (mt List.isEmpty_iff.mpr hc), ?_⟩
          intro c hcw
          exact ⟨hcur c (List.mem_reverse.mp hcw), Or.inr (List.mem_reverse.mp hcw)⟩
        · obtain ⟨h1, h2⟩ := ih [] (by simp) w hw
          refine ⟨h1, fun c hcw => ⟨(h2 c hcw).1, ?_⟩⟩
          rcases (h2 c hcw).2 with h | h
          · exact Or.inl (List.mem_cons_of_mem a h)
          · simp at h
    · rw [if_neg ha] at hw
      have hcur' : ∀ c ∈ a :: cur, isWsChar c = false := by
        intro c hc
        rcases List.mem_cons.mp hc with h | h
        · subst h
          exact Bool.eq_false_iff.mpr ha
        · exact hcur c h
      obtain ⟨h1, h2⟩ := ih (a :: cur) hcur' w hw
      refine ⟨h1, fun c hcw => ⟨(h2 c hcw).1, ?_⟩⟩
      rcases (h2 c hcw).2 with h | h
      · exact Or.inl (List.mem_cons_of_mem a h)
      · rcases List.mem_cons.mp h with h | h
        · exact Or.inl (h ▸ List.mem_cons_self a rest)
        · exact Or.inr h

/-- Characters of the stripped string come from the original string. -/
theorem mem_pyStrip (s : PyStr) (c : Nat) (hc : c ∈ pyStrip s) : c ∈ s := by
  rw [pyStrip, List.mem_reverse] at hc
  have h1 : c ∈ (s.dropWhile isWsChar).reverse :=
    (List.dropWhile_sublist (p := isWsChar)).subset hc
  rw [List.mem_reverse] at h1
  exact (List.dropWhile_sublist (p := isWsChar)).subset h1

/-- Consuming a whitespace-free word accumulates it (reversed) into `cur`. -/
theorem splitWsAux_word (w : PyStr) (hw : ∀ c ∈ w, isWsChar c = false) :
    ∀ (rest cur : PyStr), splitWsAux (w ++ rest) cur = splitWsAux rest (w.reverse ++ cur) := by
  induction w with
  | nil => intro rest cur; simp
  | cons a w' ih =>
    intro rest cur
    have ha : isWsChar a = false := hw a (by simp)
    simp only [List.cons_append, splitWsAux, ha, Bool.false_eq_true, if_false, List.append_eq]
    rw [ih (fun c hc => hw c (by simp [hc])) rest (a :: cur)]
    simp [List.reverse_cons, List.append_assoc]

/-- Splitting the single-space join of nonempty whitespace-free words recovers
exactly those words. -/
theorem splitWs_joinSp (ws : List PyStr)
    (h : ∀ w ∈ ws, w ≠ [] ∧ ∀ c ∈ w, isWsChar c = false) :
    splitWs (joinSp ws) = ws := by
  induction ws with
  | nil => rfl
  | cons w ws' ih =>
    obtain ⟨hne, hchars⟩ := h w (by simp)
    have hrevne : ((w.reverse).isEmpty = true) → False := by
      intro hh
      exact hne (by simpa [List.reverse_eq_nil_iff] using List.isEmpty_iff.mp hh)
    cases ws' with
    | nil =>
      show splitWs (joinSp [w]) = [w]
      have h1 : splitWsAux w [] = splitWsAux [] (w.reverse ++ []) := by
        conv_lhs => rw [← List.append_nil w]
        exact splitWsAux_word w hchars [] []
      rw [splitWs, show joinSp [w] = w from rfl, h1]
      simp only [List.append_nil, splitWsAux]
      rw [if_neg hrevne, List.reverse_reverse]
    | cons x rest =>
      have hj : joinSp (w :: x :: rest) = w ++ 32 :: joinSp (x :: rest) := rfl
      rw [splitWs, hj, splitWsAux_word w hchars (32 :: joinSp (x :: rest)) []]
      simp only [List.append_nil, splitWsAux]
      rw [if_pos (by decide), if_neg hrevne, List.reverse_reverse]
      rw [show splitWsAux (joinSp (x :: rest)) [] = splitWs (joinSp (x :: rest)) from rfl]
      rw [ih (fun v hv => h v (by simp [hv]))]

/-- Characters of a single-space join are the space or come from the words. -/
theorem mem_joinSp (ws : List PyStr) : ∀ c ∈ joinSp ws, c = 32 ∨ ∃ w ∈ ws, c ∈ w := by
  induction ws with
  | nil => intro c hc; simp [joinSp] at hc
  | cons w ws' ih =>
    cases ws' with
    | nil =>
      intro c hc
      exact Or.inr ⟨w, by simp, by simpa [joinSp] using hc⟩
    | cons x rest =>
      intro c hc
      rw [show joinSp (w :: x :: rest) = w ++ 32 :: joinSp (x :: rest) from rfl] at hc
      rcases List.mem_append.mp hc with h | h
      · exact Or.inr ⟨w, by simp, h⟩
      · rcases List.mem_cons.mp h with h | h
        · exact Or.inl h
        · rcases ih c h with h32 | ⟨v, hv, hcv⟩
          · exact Or.inl h32
          · exact Or.inr ⟨v, List.mem_cons_of_mem w hv, hcv⟩

/-- A tail of pure whitespace behaves like the end of input. -/
theorem splitWsAux_all_ws (t : PyStr) (ht : ∀ c ∈ t, isWsChar c = true) :
    ∀ cur : PyStr, splitWsAux t cur = splitWsAux [] cur := by
  induction t with
  | nil => intro cur; rfl
  | cons a t' ih =>
    intro cur
    have ha : isWsChar a = true := ht a (by simp)
    have iht : ∀ c ∈ t', isWsChar c = true := fun c hc => ht c (by simp [hc])
    simp only [splitWsAux, ha, if_true]
    by_cases hc : cur.isEmpty
    · rw [if_pos hc, ih iht, List.isEmpty_iff.mp hc]
      rfl
    · rw [if_neg hc, ih iht]
      simp only [splitWsAux]
      rw [if_pos (by rfl), if_neg hc]

/-- Appending trailing whitespace does not change the split. -/
theorem splitWsAux_append_all_ws (s t : PyStr) (ht : ∀ c ∈ t, isWsChar c = true) :
    ∀ cur, splitWsAux (s ++ t) cur = splitWsAux s cur := by
  induction s with
  | nil =>
    intro cur
    rw [List.nil_append, splitWsAux_all_ws t ht]
  | cons a s' ih =>
    intro cur
    simp only [List.cons_append, splitWsAux]
    split_ifs <;> simp [ih]

/-- Dropping leading whitespace does not change the split. -/
theorem splitWsAux_dropWhile (s : PyStr) :
    splitWsAux (s.dropWhile isWsChar) [] = splitWsAux s [] := by
  induction s with
  | nil => rfl
  | cons a s' ih =>
    by_cases ha : isWsChar a = true
    · rw [List.dropWhile_cons, if_pos ha, ih]
      simp [splitWsAux, ha]
    · rw [List.dropWhile_cons, if_neg ha]

/-- Stripping does not change the whitespace split. -/
theorem splitWs_pyStrip (s : PyStr) : splitWs (pyStrip s) = splitWs s := by
  have h1 : splitWs (s.dropWhile isWsChar) = splitWs s := by
    rw [splitWs, splitWs, splitWsAux_dropWhile]
  have hdw := List.takeWhile_append_dropWhile (p := isWsChar) (l := (s.dropWhile isWsChar).reverse)
  have hdecomp : s.dropWhile isWsChar
      = pyStrip s ++ ((s.dropWhile isWsChar).reverse.takeWhile isWsChar).reverse := by
    rw [pyStrip]
    conv_lhs => rw [← List.reverse_reverse (s.dropWhile isWsChar), ← hdw]
    rw [List.reverse_append]
  have htw : ∀ c ∈ ((s.dropWhile isWsChar).reverse.takeWhile isWsChar).reverse,
      isWsChar c = true := by
    intro c hc
    exact List.mem_takeWhile_imp (List.mem_reverse.mp hc)
  rw [← h1, hdecomp]
  simp only [splitWs]
  rw [splitWsAux_append_all_ws _ _ htw]

/-- Unfolded form of the normalizer on nonempty input. -/
theorem normalize_eq_joinSp (s : PyStr) (hs : ¬ s.isEmpty = true) :
    normalize_ingredient_name s = joinSp ((splitWs (pyStrip (pyLower s))).filter keepWord) := by
  simp only [normalize_ingredient_name]
  rw [if_neg hs]

/-- C4: the ingredient-name normalizer is idempotent: for every string `s`,
`normalize(normalize(s)) = normalize(s)`. -/
theorem C4_normalize_idempotent (s : PyStr) :
    normalize_ingredient_name (normalize_ingredient_name s) = normalize_ingredient_name s := by
  by_cases hs : s.isEmpty = true
  · have h0 : normalize_ingredient_name s = [] := by
      simp only [normalize_ingredient_name]
      rw [if_pos hs]
    rw [h0]
    rfl
  · rw [normalize_eq_joinSp s hs]
    have hWords : ∀ w ∈ (splitWs (pyStrip (pyLower s))).filter keepWord,
        w ≠ [] ∧ ∀ c ∈ w, isWsChar c = false := by
      intro w hw
      have hw' : w ∈ splitWs (pyStrip (pyLower s)) := List.mem_of_mem_filter hw
      have hsound := splitWsAux_sound (pyStrip (pyLower s)) [] (by simp) w hw'
      exact ⟨hsound.1, fun c hc => (hsound.2 c hc).1⟩
    have hKeep : ∀ w ∈ (splitWs (pyStrip (pyLower s))).filter keepWord, keepWord w = true :=
      fun w hw => List.of_mem_filter hw
    have hlowfix : ∀ c ∈ joinSp ((splitWs (pyStrip (pyLower s))).filter keepWord),
        pyLowerChar c = c := by
      intro c hc
      rcases mem_joinSp _ c hc with h32 | ⟨w, hwL, hcw⟩
      · subst h32
        decide
      · have hw' : w ∈ splitWs (pyStrip (pyLower s)) := List.mem_of_mem_filter hwL
        have hmem := ((splitWsAux_sound (pyStrip (pyLower s)) [] (by simp) w hw').2 c hcw).2
        rcases hmem with h | h
        · have hc2 : c ∈ pyLower s := mem_pyStrip _ c h
          obtain ⟨c0, _, rfl⟩ := List.mem_map.mp hc2
          exact pyLowerChar_idem c0
        · simp at h
    have hlow : pyLower (joinSp ((splitWs (pyStrip (pyLower s))).filter keepWord))
        = joinSp ((splitWs (pyStrip (pyLower s))).filter keepWord) :=
      map_fixed_eq_self pyLowerChar _ hlowfix
    by_cases ht : (joinSp ((splitWs (pyStrip (pyLower s))).filter keepWord)).isEmpty = true
    · have h0 : normalize_ingredient_name
          (joinSp ((splitWs (pyStrip (pyLower s))).filter keepWord)) = [] := by
        simp only [normalize_ingredient_name]
        rw [if_pos ht]
      rw [h0, List.isEmpty_iff.mp ht]
    · rw [normalize_eq_joinSp _ ht, hlow, splitWs_pyStrip, splitWs_joinSp _ hWords,
        List.filter_eq_self.mpr hKeep]
